import Mathlib

/-!
# estimate_log2.c: a verification development

A shallow embedding of `src/estimate_log2.c`, an MPI program that estimates `ln(log_number)` by
the midpoint rectangle rule for the integral of `1/(x+1)` over `[0, log_number - 1]`, with the
rectangles dealt out round-robin to the `p` processes and the partial results summed by
`MPI_Reduce`.

Modelling conventions.

* `double` arithmetic is exact arithmetic in a field `K`; the definitions are generic in `K`, so
  they run on `ℚ` and can be reasoned about on `ℝ`.
* The `for` loop is a recursion on a fuel argument that bounds the number of loop tests.
* The loop counter `int i` is a 32-bit integer: an increment `i += p` whose result is outside
  `[INT_MIN, INT_MAX]` is an overflow, after which the program has no defined result.
  `approximate_log` returns `none` when the call hands back no value, because the fuel ran out
  or because the counter overflowed.  `loop_counter` runs the same loop header and tells the two
  apart (`CounterRun.overflow`, `CounterRun.out_of_fuel`); `approximate_log_loop_of_counter`
  relates the two.
* The values the C library hands to `main` (`argc`, the results of `strtod` and `strtol`, `errno`
  after each call, the two `MPI_Wtime` readings) are inputs of the model.
-/

namespace EstimateLog

/-! ## Machine integers -/

/-- Largest value of a 32-bit `int`. -/
def INT_MAX : Int := 2147483647

/-- Smallest value of a 32-bit `int`. -/
def INT_MIN : Int := -2147483648

/-- Largest value of a 64-bit `long` (LP64, the data model of the platforms MPI runs on). -/
def LONG_MAX : Int := 9223372036854775807

/-- Smallest value of a 64-bit `long`. -/
def LONG_MIN : Int := -9223372036854775808

/-- Conversion of a `long` to `int` at the assignment `num_intervals = strtol(...)` (line 73):
the value is reduced modulo `2^32` into the range of `int`. -/
def long_to_int (v : Int) : Int := (v + 2147483648) % 4294967296 - 2147483648

/-! ## approximate_log (lines 112-135) -/

section Integrator

variable {K : Type} [Field K]

/-- The `for` loop of `approximate_log` (lines 128-132).  The state is the 32-bit counter `i`
and the accumulator `sum`; each call performs one loop test `i <= num_segments`, and after the
body the increment `i += p`.  The result is `none` when the loop hands back no sum: the fuel ran
out, or the increment has a result outside the range of `int`. -/
def approximate_log_loop (dx : K) (num_segments p : Int) : Nat → Int → K → Option K
  | 0, _, _ => none
  | fuel + 1, i, sum =>
    if i ≤ num_segments then
      let x : K := dx * ((i : K) - 1 / 2)
      if INT_MIN ≤ i + p ∧ i + p ≤ INT_MAX then
        approximate_log_loop dx num_segments p fuel (i + p) (sum + 1 / (x + 1))
      else
        none
    else
      some sum

/-- The function `approximate_log(log_number, num_segments, id, p)`; `none` when the call hands
back no value (fuel exhausted, or overflow of the counter at `i = id + 1` or at `i += p`). -/
def approximate_log (fuel : Nat) (log_number : K) (num_segments id p : Int) : Option K :=
  let dx : K := (log_number - 1) / (num_segments : K)
  if id + 1 ≤ INT_MAX then
    match approximate_log_loop dx num_segments p fuel (id + 1) 0 with
    | none => none
    | some sum => some (dx * sum)
  else
    none

/-- The reduction `MPI_Reduce(&local_log, &log_estimate, 1, MPI_DOUBLE, MPI_SUM, ROOT, ...)`
(line 95) over the ranks `0, ..., size - 1`: every rank contributes its `local_log` once; the
reduction completes only when every rank has delivered its contribution. -/
def MPI_Reduce_sum (local_log : Int → Option K) : Nat → Option K
  | 0 => some 0
  | r + 1 =>
    match MPI_Reduce_sum local_log r, local_log (r : Int) with
    | some acc, some v => some (acc + v)
    | _, _ => none

/-- The value `log_estimate` that rank 0 holds after the reduction, when all `p` processes run
`approximate_log` on the same `log_number` and `num_intervals`, each with its own rank. -/
def log_estimate (fuel : Nat) (log_number : K) (num_intervals p : Int) : Option K :=
  MPI_Reduce_sum (fun id => approximate_log fuel log_number num_intervals id p) p.toNat

end Integrator

/-! ## The 32-bit loop counter -/

/-- Outcome of running the loop header `for (i = ...; i <= num_segments; i += p)` with a 32-bit
counter: the loop ends after running its body for the listed values of `i`, or the increment
`i += p` executed at counter value `i` has a result outside the range of `int`, or the fuel ran
out. -/
inductive CounterRun where
  | finished (visited : List Int)
  | overflow (i : Int)
  | out_of_fuel
  deriving DecidableEq, Repr

/-- Records one more visited index in front of a finished run. -/
def CounterRun.visit (i : Int) : CounterRun → CounterRun
  | .finished visited => .finished (i :: visited)
  | .overflow j => .overflow j
  | .out_of_fuel => .out_of_fuel

/-- The counter of the `for` loop of `approximate_log` (line 128), started at `i`. -/
def loop_counter (num_segments p : Int) : Nat → Int → CounterRun
  | 0, _ => .out_of_fuel
  | fuel + 1, i =>
    if i ≤ num_segments then
      if INT_MIN ≤ i + p ∧ i + p ≤ INT_MAX then
        (loop_counter num_segments p fuel (i + p)).visit i
      else
        .overflow i
    else
      .finished []

/-- The counter run of `approximate_log(_, num_segments, id, p)`: the initialisation `i = id + 1`
followed by the loop. -/
def approximate_log_counter (fuel : Nat) (num_segments id p : Int) : CounterRun :=
  if id + 1 ≤ INT_MAX then loop_counter num_segments p fuel (id + 1) else .overflow id

/-! ## main (lines 37-110) -/

/-- Value of `errno` after a library call that was entered with `errno = 0`. -/
inductive Errno where
  | zero
  | ERANGE
  | EINVAL
  deriving DecidableEq, Repr

/-- The macro `ROOT`. -/
def ROOT : Int := 0

/-- The macro `EXIT_FAILURE` of `stdlib.h`. -/
def EXIT_FAILURE : Int := 1

/-- What `strtol(s, NULL, 10)` returns, and the `errno` it leaves, for a string `s` that is a
decimal numeral of value `v`: the value itself when it fits a `long`, and otherwise the nearest
bound with `errno = ERANGE`. -/
def strtol (v : Int) : Int × Errno :=
  if LONG_MAX < v then (LONG_MAX, Errno.ERANGE)
  else if v < LONG_MIN then (LONG_MIN, Errno.ERANGE)
  else (v, Errno.zero)

/-- What the command line gives `main`: the argument count, and the result and `errno` of
`strtod(argv[1], NULL)` and of `strtol(argv[2], NULL, 10)`. -/
structure CommandLine (K : Type) where
  argc : Int
  strtod_result : K
  strtod_errno : Errno
  strtol_result : Int
  strtol_errno : Errno

/-- A line written to standard output.  `result` is the line of line 103; its third column,
`fabs(log_estimate - log(log_number))`, is a function of the first two and is not stored. -/
inductive Line (K : Type) where
  | usage
  | invalid_argument (k : Nat)
  | result (log_number log_estimate elapsed_time : K)
  deriving DecidableEq

/-- How one process ends: its exit status, the lines it printed, and the value it passed to the
reduction (`none` when it never called `approximate_log`). -/
structure Exit (K : Type) where
  status : Int
  stdout : List (Line K)
  local_log : Option K

section Coordinator

variable {K : Type} [LinearOrderedField K]

/-- The value of `elapsed_time` that is printed: line 83 stores the first clock reading, line 99
adds the second one. -/
def elapsed_time (t0 t1 : K) : K :=
  let elapsed_time := t0
  elapsed_time + t1

/-- The function `main` as run by the process of rank `id` in a group of `p` processes, all
started on the same command line; `t0` and `t1` are the readings of `MPI_Wtime` at lines 83 and
99.  `none` means that the process does not reach its exit within the fuel. -/
def main (fuel : Nat) (id p : Int) (a : CommandLine K) (t0 t1 : K) : Option (Exit K) :=
  if a.argc ≠ 3 then
    some ⟨EXIT_FAILURE, if id = ROOT then [Line.usage] else [], none⟩
  else
    let log_number := a.strtod_result
    if a.strtod_errno = Errno.ERANGE ∨ a.strtod_errno = Errno.EINVAL ∨ log_number < 1 then
      some ⟨EXIT_FAILURE, if id = ROOT then [Line.invalid_argument 1] else [], none⟩
    else
      let num_intervals := long_to_int a.strtol_result
      if a.strtol_errno = Errno.ERANGE ∨ num_intervals < 1 then
        some ⟨EXIT_FAILURE, if id = ROOT then [Line.invalid_argument 2] else [], none⟩
      else
        match approximate_log fuel log_number num_intervals id p,
              log_estimate fuel log_number num_intervals p with
        | some local_log, some estimate =>
          some ⟨0, if ROOT = id then
                     [Line.result log_number estimate (elapsed_time t0 t1)] else [],
                some local_log⟩
        | _, _ => none

end Coordinator

/-- A process ends as a rejected run: it exits with a non-zero status, has not called
`approximate_log`, and has printed no result line. -/
def Rejected {K : Type} (o : Option (Exit K)) : Prop :=
  ∃ e, o = some e ∧ e.status ≠ 0 ∧ e.local_log = none ∧
    ∀ x y z : K, Line.result x y z ∉ e.stdout

/-! ## The loop in closed form -/

section ClosedForm

theorem owned_step (n p i : ℕ) (hp : 1 ≤ p) (hi : i ≤ n) :
    (Finset.Icc i n).filter (fun j => j ≡ i [MOD p]) =
      insert i ((Finset.Icc (i + p) n).filter (fun j => j ≡ i + p [MOD p])) := by
  ext j
  simp only [Finset.mem_filter, Finset.mem_Icc, Finset.mem_insert]
  have key : j ≡ i + p [MOD p] ↔ j ≡ i [MOD p] := by
    unfold Nat.ModEq
    rw [Nat.add_mod_right]
  rw [key]
  constructor
  · rintro ⟨⟨h1, h2⟩, h3⟩
    rcases Nat.eq_or_lt_of_le h1 with h | h
    · exact Or.inl h.symm
    · right
      refine ⟨⟨?_, h2⟩, h3⟩
      have hd : p ∣ j - i := (Nat.modEq_iff_dvd' h1).1 h3.symm
      have := Nat.le_of_dvd (by omega) hd
      omega
  · rintro (h | ⟨⟨h1, h2⟩, h3⟩)
    · subst h
      exact ⟨⟨le_refl _, hi⟩, Nat.ModEq.refl _⟩
    · exact ⟨⟨by omega, h2⟩, h3⟩

/-- An index congruent to `id + 1` modulo `p` is at least `id + 1`, for `id < p`. -/
theorem owned_ge (p id j : ℕ) (hid : id < p) (hj : 1 ≤ j) (h : j ≡ id + 1 [MOD p]) :
    id + 1 ≤ j := by
  unfold Nat.ModEq at h
  rcases Nat.eq_or_lt_of_le (Nat.succ_le_of_lt hid) with he | hl
  · have he' : id + 1 = p := he
    rw [he', Nat.mod_self] at h
    have hd : p ∣ j := Nat.dvd_of_mod_eq_zero h
    have := Nat.le_of_dvd (by omega) hd
    omega
  · have hl' : id + 1 < p := hl
    rw [Nat.mod_eq_of_lt hl'] at h
    have := Nat.mod_le j p
    omega

theorem owned_from_one (n p id : ℕ) (hid : id < p) :
    (Finset.Icc (id + 1) n).filter (fun j => j ≡ id + 1 [MOD p]) =
      (Finset.Icc 1 n).filter (fun j => j ≡ id + 1 [MOD p]) := by
  ext j
  simp only [Finset.mem_filter, Finset.mem_Icc]
  constructor
  · rintro ⟨⟨h1, h2⟩, h3⟩
    exact ⟨⟨by omega, h2⟩, h3⟩
  · rintro ⟨⟨h1, h2⟩, h3⟩
    exact ⟨⟨owned_ge p id j hid h1 h3, h2⟩, h3⟩

theorem owned_iff_rank (p id j : ℕ) (hid : id < p) (hj : 1 ≤ j) :
    j ≡ id + 1 [MOD p] ↔ (j - 1) % p = id := by
  obtain ⟨m, rfl⟩ : ∃ m, j = m + 1 := ⟨j - 1, by omega⟩
  simp only [Nat.add_sub_cancel]
  constructor
  · intro h
    have h2 : m ≡ id [MOD p] := Nat.ModEq.add_right_cancel' 1 h
    unfold Nat.ModEq at h2
    rw [h2, Nat.mod_eq_of_lt hid]
  · intro h
    have h2 : m ≡ id [MOD p] := by
      unfold Nat.ModEq
      rw [h, Nat.mod_eq_of_lt hid]
    exact Nat.ModEq.add_right 1 h2

variable {K : Type} [Field K]

theorem approximate_log_loop_eq (dx : K) (n p : ℕ) (hp : 1 ≤ p)
    (hrange : (n : ℤ) + (p : ℤ) ≤ INT_MAX) :
    ∀ (fuel i : ℕ) (sum : K), n + 1 - i < fuel →
      approximate_log_loop dx (n : ℤ) (p : ℤ) fuel (i : ℤ) sum =
        some (sum + ∑ j in (Finset.Icc i n).filter (fun j => j ≡ i [MOD p]),
          1 / (dx * ((j : K) - 1 / 2) + 1)) := by
  intro fuel
  induction fuel with
  | zero => intro i sum h; omega
  | succ f ih =>
    intro i sum h
    unfold approximate_log_loop
    by_cases hi : i ≤ n
    · have hi' : (i : ℤ) ≤ (n : ℤ) := by exact_mod_cast hi
      have hr : INT_MIN ≤ (i : ℤ) + (p : ℤ) ∧ (i : ℤ) + (p : ℤ) ≤ INT_MAX := by
        unfold INT_MIN
        constructor <;> omega
      rw [if_pos hi', if_pos hr]
      have hcast : (i : ℤ) + (p : ℤ) = ((i + p : ℕ) : ℤ) := by push_cast; rfl
      simp only [hcast]
      rw [ih (i + p) _ (by omega), owned_step n p i hp hi, Finset.sum_insert]
      · simp only [Int.cast_natCast]
        rw [add_assoc]
      · simp only [Finset.mem_filter, Finset.mem_Icc]
        omega
    · have hi' : ¬ (i : ℤ) ≤ (n : ℤ) := by exact_mod_cast hi
      rw [if_neg hi']
      have : Finset.Icc i n = ∅ := Finset.Icc_eq_empty (by omega)
      simp [this]

/-- Closed form of `approximate_log` for a rank `id < p`, when `n + p` is in the range of
`int`. -/
theorem approximate_log_eq (fuel : ℕ) (log_number : K) (n id p : ℕ) (hid : id < p)
    (hrange : (n : ℤ) + (p : ℤ) ≤ INT_MAX) (hfuel : n < fuel) :
    approximate_log fuel log_number (n : ℤ) (id : ℤ) (p : ℤ) =
      some ((log_number - 1) / (n : K) *
        ∑ j in (Finset.Icc 1 n).filter (fun j => j ≡ id + 1 [MOD p]),
          1 / ((log_number - 1) / (n : K) * ((j : K) - 1 / 2) + 1)) := by
  unfold approximate_log
  have hinit : (id : ℤ) + 1 ≤ INT_MAX := by omega
  rw [if_pos hinit]
  have hcast : (id : ℤ) + 1 = ((id + 1 : ℕ) : ℤ) := by push_cast; rfl
  simp only [hcast, Int.cast_natCast]
  rw [approximate_log_loop_eq _ n p (by omega) hrange fuel (id + 1) 0 (by omega),
    owned_from_one n p id hid]
  simp

theorem MPI_Reduce_sum_eq (local_log : ℤ → Option K) (v : ℕ → K) :
    ∀ m : ℕ, (∀ r, r < m → local_log (r : ℤ) = some (v r)) →
      MPI_Reduce_sum local_log m = some (∑ r in Finset.range m, v r) := by
  intro m
  induction m with
  | zero => intro _; simp [MPI_Reduce_sum]
  | succ m ih =>
    intro h
    unfold MPI_Reduce_sum
    rw [ih (fun r hr => h r (by omega)), h m (by omega), Finset.sum_range_succ]

/-- The reduction delivers nothing when some rank delivers nothing. -/
theorem MPI_Reduce_sum_eq_none (local_log : ℤ → Option K) (r : ℕ)
    (hr : local_log (r : ℤ) = none) :
    ∀ m : ℕ, r < m → MPI_Reduce_sum local_log m = none := by
  intro m
  induction m with
  | zero => intro h; omega
  | succ m ih =>
    intro h
    unfold MPI_Reduce_sum
    rcases Nat.eq_or_lt_of_le (Nat.le_of_lt_succ h) with he | hl
    · subst he
      rw [hr]
      cases MPI_Reduce_sum local_log r <;> rfl
    · rw [ih hl]

theorem sum_over_ranks (n p : ℕ) (hp : 1 ≤ p) (f : ℕ → K) :
    ∑ r in Finset.range p, ∑ j in (Finset.Icc 1 n).filter (fun j => j ≡ r + 1 [MOD p]), f j =
      ∑ j in Finset.Icc 1 n, f j := by
  rw [← Finset.sum_fiberwise_of_maps_to (s := Finset.Icc 1 n) (t := Finset.range p)
    (g := fun j => (j - 1) % p) (f := f)]
  · apply Finset.sum_congr rfl
    intro r hr
    apply Finset.sum_congr _ (fun _ _ => rfl)
    ext j
    simp only [Finset.mem_filter, Finset.mem_Icc]
    constructor
    · rintro ⟨⟨h1, h2⟩, h3⟩
      exact ⟨⟨h1, h2⟩, (owned_iff_rank p r j (Finset.mem_range.1 hr) h1).1 h3⟩
    · rintro ⟨⟨h1, h2⟩, h3⟩
      exact ⟨⟨h1, h2⟩, (owned_iff_rank p r j (Finset.mem_range.1 hr) h1).2 h3⟩
  · intro j _
    exact Finset.mem_range.2 (Nat.mod_lt _ (by omega))

/-- Closed form of the reduced estimate, when `n + p` is in the range of `int`: the full
midpoint sum. -/
theorem log_estimate_eq (fuel : ℕ) (log_number : K) (n p : ℕ) (hp : 1 ≤ p)
    (hrange : (n : ℤ) + (p : ℤ) ≤ INT_MAX) (hfuel : n < fuel) :
    log_estimate fuel log_number (n : ℤ) (p : ℤ) =
      some ((log_number - 1) / (n : K) *
        ∑ j in Finset.Icc 1 n, 1 / ((log_number - 1) / (n : K) * ((j : K) - 1 / 2) + 1)) := by
  unfold log_estimate
  rw [Int.toNat_natCast, MPI_Reduce_sum_eq
    (fun id : ℤ => approximate_log fuel log_number (n : ℤ) id (p : ℤ))
    (fun r : ℕ => (log_number - 1) / (n : K) *
      ∑ j in (Finset.Icc 1 n).filter (fun j => j ≡ r + 1 [MOD p]),
        1 / ((log_number - 1) / (n : K) * ((j : K) - 1 / 2) + 1)) p
    (fun r hr => approximate_log_eq fuel log_number n r p hr hrange hfuel),
    ← Finset.mul_sum, sum_over_ranks n p hp]

/-- A loop whose counter, `k` increments after `i`, stands at an index `j <= n` with `j + p`
outside the range of `int`, hands back no sum, whatever the fuel. -/
theorem approximate_log_loop_overflow (dx : K) (n p j : ℤ) (hp : 1 ≤ p) (hj : j ≤ n)
    (hn : n ≤ INT_MAX) (hov : INT_MAX < j + p) :
    ∀ (k fuel : ℕ) (i : ℤ) (sum : K), 0 ≤ i → i + (k : ℤ) * p = j →
      approximate_log_loop dx n p fuel i sum = none := by
  intro k
  induction k with
  | zero =>
    intro fuel i sum _ hi
    have hi' : i = j := by simpa using hi
    subst hi'
    cases fuel with
    | zero => rfl
    | succ f =>
      unfold approximate_log_loop
      have hr : ¬ (INT_MIN ≤ i + p ∧ i + p ≤ INT_MAX) := fun h => absurd h.2 (not_le.2 hov)
      rw [if_pos hj, if_neg hr]
  | succ k ih =>
    intro fuel i sum h0 hi
    have hk : 0 ≤ (k : ℤ) * p := mul_nonneg (Int.ofNat_nonneg k) (by omega)
    have hi' : i + p + (k : ℤ) * p = j := by
      push_cast at hi
      linarith
    cases fuel with
    | zero => rfl
    | succ f =>
      unfold approximate_log_loop
      have h1 : i ≤ n := by omega
      have hr : INT_MIN ≤ i + p ∧ i + p ≤ INT_MAX := by
        unfold INT_MIN
        constructor <;> omega
      rw [if_pos h1, if_pos hr]
      exact ih f (i + p) _ (by omega) hi'

/-- A call of `approximate_log` whose counter reaches, after `k` increments, an index
`j <= num_segments` with `j + p` outside the range of `int`, hands back no value, whatever the
fuel. -/
theorem approximate_log_overflow (log_number : K) (n id p j : ℤ) (k : ℕ) (hp : 1 ≤ p)
    (hid : 0 ≤ id) (hj : j ≤ n) (hn : n ≤ INT_MAX) (hov : INT_MAX < j + p)
    (hk : id + 1 + (k : ℤ) * p = j) (fuel : ℕ) :
    approximate_log fuel log_number n id p = none := by
  unfold approximate_log
  have hkp : 0 ≤ (k : ℤ) * p := mul_nonneg (Int.ofNat_nonneg k) (by omega)
  have hinit : id + 1 ≤ INT_MAX := by omega
  rw [if_pos hinit]
  rw [approximate_log_loop_overflow _ n p j hp hj hn hov k fuel (id + 1) 0 (by omega) hk]

end ClosedForm

/-! ## The loop of approximate_log and the counter run -/

section Bridge

/-- Whenever the counter run ends without overflow, the loop of `approximate_log` returns with
the same fuel, and its sum is taken over exactly the visited indices. -/
theorem approximate_log_loop_of_counter {K : Type} [Field K] (dx : K) (n p : ℤ) :
    ∀ (fuel : ℕ) (i : ℤ) (l : List ℤ) (sum : K),
      loop_counter n p fuel i = CounterRun.finished l →
      approximate_log_loop dx n p fuel i sum =
        some (sum + (l.map (fun j : ℤ => 1 / (dx * ((j : K) - 1 / 2) + 1))).sum) := by
  intro fuel
  induction fuel with
  | zero =>
    intro i l sum h
    simp [loop_counter] at h
  | succ f ih =>
    intro i l sum h
    unfold loop_counter at h
    unfold approximate_log_loop
    by_cases hi : i ≤ n
    · rw [if_pos hi] at h
      rw [if_pos hi]
      by_cases hr : INT_MIN ≤ i + p ∧ i + p ≤ INT_MAX
      · rw [if_pos hr] at h
        rw [if_pos hr]
        cases hc : loop_counter n p f (i + p) with
        | finished l' =>
          rw [hc] at h
          simp only [CounterRun.visit, CounterRun.finished.injEq] at h
          subst h
          rw [ih (i + p) l' _ hc, List.map_cons, List.sum_cons, add_assoc]
        | overflow j =>
          rw [hc] at h
          simp [CounterRun.visit] at h
        | out_of_fuel =>
          rw [hc] at h
          simp [CounterRun.visit] at h
      · rw [if_neg hr] at h
        simp at h
    · rw [if_neg hi] at h
      rw [if_neg hi]
      simp only [CounterRun.finished.injEq] at h
      subst h
      simp

/-- Whenever the counter run does not end (overflow or fuel exhausted), the loop of
`approximate_log` hands back no sum with the same fuel. -/
theorem approximate_log_loop_none_of_counter {K : Type} [Field K] (dx : K) (n p : ℤ) :
    ∀ (fuel : ℕ) (i : ℤ) (sum : K),
      (∀ l, loop_counter n p fuel i ≠ CounterRun.finished l) →
      approximate_log_loop dx n p fuel i sum = none := by
  intro fuel
  induction fuel with
  | zero =>
    intro i sum _
    rfl
  | succ f ih =>
    intro i sum h
    unfold loop_counter at h
    unfold approximate_log_loop
    by_cases hi : i ≤ n
    · rw [if_pos hi] at h
      rw [if_pos hi]
      by_cases hr : INT_MIN ≤ i + p ∧ i + p ≤ INT_MAX
      · rw [if_pos hr] at h
        rw [if_pos hr]
        apply ih
        intro l hl
        apply h (i :: l)
        rw [hl]
        rfl
      · rw [if_neg hr]
    · rw [if_neg hi] at h
      exact absurd rfl (h [])

/-- A counter that, `k` increments after `i`, stands at an index `j <= n` with `j + p` outside
the range of `int` overflows there, given fuel for `k + 1` loop tests. -/
theorem loop_counter_overflow_at (n p j : ℤ) (hp : 1 ≤ p) (hj : j ≤ n) (hn : n ≤ INT_MAX)
    (hov : INT_MAX < j + p) :
    ∀ (k fuel : ℕ) (i : ℤ), 0 ≤ i → i + (k : ℤ) * p = j → k < fuel →
      loop_counter n p fuel i = CounterRun.overflow j := by
  intro k
  induction k with
  | zero =>
    intro fuel i _ hi hf
    obtain ⟨f, rfl⟩ : ∃ f, fuel = f + 1 := ⟨fuel - 1, by omega⟩
    have hi' : i = j := by simpa using hi
    subst hi'
    unfold loop_counter
    have hr : ¬ (INT_MIN ≤ i + p ∧ i + p ≤ INT_MAX) := fun h => absurd h.2 (not_le.2 hov)
    rw [if_pos hj, if_neg hr]
  | succ k ih =>
    intro fuel i h0 hi hf
    obtain ⟨f, rfl⟩ : ∃ f, fuel = f + 1 := ⟨fuel - 1, by omega⟩
    have hk : 0 ≤ (k : ℤ) * p := mul_nonneg (Int.ofNat_nonneg k) (by omega)
    have hi' : i + p + (k : ℤ) * p = j := by
      push_cast at hi
      linarith
    unfold loop_counter
    have h1 : i ≤ n := by omega
    have hr : INT_MIN ≤ i + p ∧ i + p ≤ INT_MAX := by
      unfold INT_MIN
      constructor <;> omega
    rw [if_pos h1, if_pos hr, ih f (i + p) (by omega) hi' (by omega)]
    rfl

end Bridge

/-! ## The partial integrator -/

section IntegratorClaims

/-- In the range of `int`: for `target = 1` every rank returns exactly `0`, and so does the
reduction. -/
theorem approximate_log_target_one_in_range {K : Type} [Field K] (fuel : ℕ)
    (segments id P : ℤ) (hs : 1 ≤ segments) (hP : 1 ≤ P) (hrange : segments + P ≤ INT_MAX)
    (hid0 : 0 ≤ id) (hid : id < P) (hfuel : segments < fuel) :
    approximate_log fuel (1 : K) segments id P = some 0 ∧
      log_estimate fuel (1 : K) segments P = some 0 := by
  lift segments to ℕ using (by omega)
  lift P to ℕ using (by omega)
  lift id to ℕ using hid0
  have hid' : id < P := by exact_mod_cast hid
  have hf' : segments < fuel := by exact_mod_cast hfuel
  have hP' : 1 ≤ P := by exact_mod_cast hP
  constructor
  · rw [approximate_log_eq fuel 1 segments id P hid' hrange hf']
    simp
  · rw [log_estimate_eq fuel 1 segments P hP' hrange hf']
    simp

/-- C2 (failing input): `approximate_log(1, 2147483647, 0, 1)`, reached from the command line
`prog 1 2147483647` on one process.  The counter reaches `i = 2147483647`, passes the loop test
and overflows at `i += 1`, so the call hands back no value, whatever the fuel, instead of `0`;
the reduction delivers nothing either. -/
theorem target_one_overflow :
    (∀ fuel : ℕ, approximate_log fuel (1 : ℚ) 2147483647 0 1 = none) ∧
      (∀ fuel : ℕ, log_estimate fuel (1 : ℚ) 2147483647 1 = none) := by
  have h : ∀ fuel : ℕ, approximate_log fuel (1 : ℚ) 2147483647 0 1 = none :=
    approximate_log_overflow (1 : ℚ) 2147483647 0 1 2147483647 2147483646 (by decide)
      (by decide) (by decide) (by decide) (by decide) (by decide)
  refine ⟨h, fun fuel => ?_⟩
  exact MPI_Reduce_sum_eq_none
    (fun id : ℤ => approximate_log fuel (1 : ℚ) 2147483647 id 1) 0 (h fuel) 1 (by decide)

/-- In the range of `int`: the reduction over the ranks `0, ..., P - 1` and the single-worker
call `approximate_log(target, segments, 0, 1)` return the same value. -/
theorem partition_invariance_in_range {K : Type} [LinearOrderedField K] (fuel : ℕ)
    (target : K) (segments P : ℤ) (_ht : 1 ≤ target) (hs : 1 ≤ segments) (hP : 1 ≤ P)
    (hrange : segments + P ≤ INT_MAX) (hfuel : segments < fuel) :
    ∃ v : K, approximate_log fuel target segments 0 1 = some v ∧
      log_estimate fuel target segments P = some v := by
  lift segments to ℕ using (by omega)
  lift P to ℕ using (by omega)
  have hf' : segments < fuel := by exact_mod_cast hfuel
  have hP' : 1 ≤ P := by exact_mod_cast hP
  refine ⟨_, ?_, log_estimate_eq fuel target segments P hP' hrange hf'⟩
  have h := approximate_log_eq fuel target segments 0 1 Nat.zero_lt_one
    (by push_cast; omega) hf'
  simp only [Nat.cast_zero, Nat.cast_one] at h
  rw [h]
  congr 2
  apply Finset.sum_congr _ (fun _ _ => rfl)
  ext j
  simp [Nat.modEq_one]

/-- C1 (failing input): `target = 2`, `segments = 2147483646`, `P = 2`.  The single-worker call
`approximate_log(2, 2147483646, 0, 1)` returns a value, but on two processes the counter of
rank 1 walks the even indices up to `2147483646` and overflows at `i += 2`: rank 1 hands back
no value, whatever the fuel, and the reduction never delivers the sum that the claim equates
with the single-worker result. -/
theorem partition_invariance_overflow :
    (∃ v : ℚ, approximate_log 2147483647 (2 : ℚ) 2147483646 0 1 = some v) ∧
      approximate_log_counter 1073741824 2147483646 1 2 = CounterRun.overflow 2147483646 ∧
      (∀ fuel : ℕ, approximate_log fuel (2 : ℚ) 2147483646 1 2 = none) ∧
      (∀ fuel : ℕ, log_estimate fuel (2 : ℚ) 2147483646 2 = none) := by
  have h : ∀ fuel : ℕ, approximate_log fuel (2 : ℚ) 2147483646 1 2 = none :=
    approximate_log_overflow (2 : ℚ) 2147483646 1 2 2147483646 1073741822 (by decide)
      (by decide) (by decide) (by decide) (by decide) (by decide)
  refine ⟨⟨_, approximate_log_eq 2147483647 (2 : ℚ) 2147483646 0 1 (by decide) (by decide)
    (by decide)⟩, ?_, h, fun fuel => ?_⟩
  · unfold approximate_log_counter
    rw [if_pos (by decide)]
    exact loop_counter_overflow_at 2147483646 2 2147483646 (by decide) (by decide) (by decide)
      (by decide) 1073741822 1073741824 (1 + 1) (by decide) (by decide) (by decide)
  · exact MPI_Reduce_sum_eq_none
      (fun id : ℤ => approximate_log fuel (2 : ℚ) 2147483646 id 2) 1 (h fuel) 2 (by decide)

/-- The owned rectangles, indexed by integers instead of natural numbers. -/
theorem sum_owned_int {K : Type} [Field K] (n id p : ℕ) (f : K → K) :
    ∑ j in (Finset.Icc 1 n).filter (fun j => j ≡ id + 1 [MOD p]), f (j : K) =
      ∑ j in (Finset.Icc (1 : ℤ) (n : ℤ)).filter (fun j => j ≡ (id : ℤ) + 1 [ZMOD (p : ℤ)]),
        f (j : K) := by
  refine Finset.sum_nbij' (fun j : ℕ => (j : ℤ)) (fun j : ℤ => j.toNat) ?_ ?_ ?_ ?_ ?_
  · intro j hj
    simp only [Finset.mem_filter, Finset.mem_Icc] at hj ⊢
    refine ⟨⟨by omega, by omega⟩, ?_⟩
    have := Int.natCast_modEq_iff.2 hj.2
    simpa using this
  · intro j hj
    simp only [Finset.mem_filter, Finset.mem_Icc] at hj ⊢
    refine ⟨⟨by omega, by omega⟩, ?_⟩
    apply Int.natCast_modEq_iff.1
    have h0 : ((j.toNat : ℕ) : ℤ) = j := Int.toNat_of_nonneg (by omega)
    rw [h0]
    simpa using hj.2
  · intro j _
    simp
  · intro j hj
    simp only [Finset.mem_filter, Finset.mem_Icc] at hj
    exact Int.toNat_of_nonneg (by omega)
  · intro j _
    simp

/-- In the range of `int`: `approximate_log(target, segments, id, P)` returns `dx` times the sum
of `1 / (dx * (i - 1/2) + 1)` over exactly the `i` with `1 <= i <= segments` and `i` congruent
to `id + 1` modulo `P`, where `dx = (target - 1) / segments`; a worker with `id >= segments`
returns `0`, and with `P = 1` the result is the full midpoint sum. -/
theorem approximate_log_reference_in_range {K : Type} [LinearOrderedField K] (fuel : ℕ) (target : K)
    (segments id P : ℤ) (_ht : 1 ≤ target) (hs : 1 ≤ segments) (hP : 1 ≤ P) (hrange : segments + P ≤ INT_MAX) (hid0 : 0 ≤ id) (hid : id < P)
    (hfuel : segments < fuel) :
    approximate_log fuel target segments id P =
        some ((target - 1) / (segments : K) *
          ∑ i in (Finset.Icc 1 segments).filter (fun i => i ≡ id + 1 [ZMOD P]),
            1 / ((target - 1) / (segments : K) * ((i : K) - 1 / 2) + 1)) ∧
      (segments ≤ id → approximate_log fuel target segments id P = some 0) ∧
      (P = 1 → approximate_log fuel target segments id P =
        some ((target - 1) / (segments : K) *
          ∑ i in Finset.Icc 1 segments,
            1 / ((target - 1) / (segments : K) * ((i : K) - 1 / 2) + 1))) := by
  lift segments to ℕ using (by omega)
  lift P to ℕ using (by omega)
  lift id to ℕ using hid0
  have hid' : id < P := by exact_mod_cast hid
  have hf' : segments < fuel := by exact_mod_cast hfuel
  have main := approximate_log_eq fuel target segments id P hid' hrange hf'
  rw [sum_owned_int segments id P
    (fun y => 1 / ((target - 1) / (segments : K) * (y - 1 / 2) + 1))] at main
  simp only [Int.cast_natCast] at main ⊢
  refine ⟨main, ?_, ?_⟩
  · intro hle
    rw [main]
    have hempty : (Finset.Icc (1 : ℤ) (segments : ℤ)).filter
        (fun i => i ≡ (id : ℤ) + 1 [ZMOD (P : ℤ)]) = ∅ := by
      apply Finset.filter_eq_empty_iff.2
      intro j hj hmod
      rw [Finset.mem_Icc] at hj
      have hj0 : ((j.toNat : ℕ) : ℤ) = j := Int.toNat_of_nonneg (by omega)
      have hmod' : j.toNat ≡ id + 1 [MOD P] := by
        apply Int.natCast_modEq_iff.1
        rw [hj0]
        simpa using hmod
      have := owned_ge P id j.toNat hid' (by omega) hmod'
      omega
    rw [hempty]
    simp
  · intro hP1
    have hall : (Finset.Icc (1 : ℤ) (segments : ℤ)).filter
        (fun i => i ≡ (id : ℤ) + 1 [ZMOD (P : ℤ)]) = Finset.Icc (1 : ℤ) (segments : ℤ) := by
      apply Finset.filter_true_of_mem
      intro j _
      rw [hP1]
      exact Int.modEq_one
    rw [main, hall]

/-- C4 (failing input): `approximate_log(2, 2147483647, 0, 2)`, the call of rank 0 for the
command line `prog 2 2147483647` on two processes.  The counter walks the odd indices up to
`2147483647`, passes the loop test there and overflows at `i += 2`, so the call hands back no
value, whatever the fuel, where the reference definition gives `dx` times the sum over the odd
indices. -/
theorem reference_overflow :
    approximate_log_counter 1073741824 2147483647 0 2 = CounterRun.overflow 2147483647 ∧
      (∀ fuel : ℕ, approximate_log fuel (2 : ℚ) 2147483647 0 2 = none) := by
  constructor
  · unfold approximate_log_counter
    rw [if_pos (by decide)]
    exact loop_counter_overflow_at 2147483647 2 2147483647 (by decide) (by decide) (by decide)
      (by decide) 1073741823 1073741824 (0 + 1) (by decide) (by decide) (by decide)
  · exact approximate_log_overflow (2 : ℚ) 2147483647 0 2 2147483647 1073741823 (by decide)
      (by decide) (by decide) (by decide) (by decide) (by decide)

end IntegratorClaims

/-! ## The 32-bit loop counter: claims -/

section CounterClaims

/-- With `n + p` in the range of `int`, the counter started at `i` ends without overflow after
visiting, in increasing order, exactly the indices of `[i, n]` congruent to `i` modulo `p`. -/
theorem loop_counter_eq (n p : ℕ) (hp : 1 ≤ p) (hrange : (n : ℤ) + (p : ℤ) ≤ INT_MAX) :
    ∀ (fuel i : ℕ), n + 1 - i < fuel →
      ∃ l : List ℤ, loop_counter (n : ℤ) (p : ℤ) fuel (i : ℤ) = CounterRun.finished l ∧
        l.Sorted (· < ·) ∧
        ∀ j : ℤ, j ∈ l ↔
          ∃ m : ℕ, m ∈ (Finset.Icc i n).filter (fun m => m ≡ i [MOD p]) ∧ j = (m : ℤ) := by
  intro fuel
  induction fuel with
  | zero => intro i h; omega
  | succ f ih =>
    intro i h
    unfold loop_counter
    by_cases hi : i ≤ n
    · have hi' : (i : ℤ) ≤ (n : ℤ) := by exact_mod_cast hi
      have hr : INT_MIN ≤ (i : ℤ) + (p : ℤ) ∧ (i : ℤ) + (p : ℤ) ≤ INT_MAX := by
        unfold INT_MIN
        constructor <;> omega
      rw [if_pos hi', if_pos hr]
      have hcast : (i : ℤ) + (p : ℤ) = ((i + p : ℕ) : ℤ) := by push_cast; rfl
      obtain ⟨l, hl, hsorted, hmem⟩ := ih (i + p) (by omega)
      rw [hcast, hl]
      refine ⟨(i : ℤ) :: l, rfl, ?_, ?_⟩
      · refine List.sorted_cons.2 ⟨?_, hsorted⟩
        intro b hb
        obtain ⟨m, hm, rfl⟩ := (hmem b).1 hb
        simp only [Finset.mem_filter, Finset.mem_Icc] at hm
        omega
      · intro j
        rw [owned_step n p i hp hi, List.mem_cons, hmem j]
        constructor
        · rintro (h1 | ⟨m, hm, rfl⟩)
          · exact ⟨i, Finset.mem_insert_self _ _, h1⟩
          · exact ⟨m, Finset.mem_insert_of_mem hm, rfl⟩
        · rintro ⟨m, hm, rfl⟩
          rcases Finset.mem_insert.1 hm with h1 | h1
          · exact Or.inl (by rw [h1])
          · exact Or.inr ⟨m, h1, rfl⟩
    · have hi' : ¬ (i : ℤ) ≤ (n : ℤ) := by exact_mod_cast hi
      rw [if_neg hi']
      refine ⟨[], rfl, List.sorted_nil, ?_⟩
      intro j
      have : Finset.Icc i n = ∅ := Finset.Icc_eq_empty (by omega)
      simp [this]

/-- With `segments + p` in the range of `int`, the counter run of rank `id < p` ends without
overflow, visits no index twice, and visits exactly the indices of `[1, segments]` congruent to
`id + 1` modulo `p`. -/
theorem approximate_log_counter_eq (fuel : ℕ) (segments id p : ℤ) (hp : 1 ≤ p)
    (hs : 0 ≤ segments) (hrange : segments + p ≤ INT_MAX) (hid0 : 0 ≤ id) (hid : id < p)
    (hfuel : segments < fuel) :
    ∃ l : List ℤ, approximate_log_counter fuel segments id p = CounterRun.finished l ∧
      l.Nodup ∧ ∀ j : ℤ, j ∈ l ↔ (1 ≤ j ∧ j ≤ segments ∧ j ≡ id + 1 [ZMOD p]) := by
  lift segments to ℕ using hs
  lift p to ℕ using (by omega)
  lift id to ℕ using hid0
  have hid' : id < p := by exact_mod_cast hid
  have hf' : segments < fuel := by exact_mod_cast hfuel
  have hp' : 1 ≤ p := by exact_mod_cast hp
  obtain ⟨l, hl, hsorted, hmem⟩ := loop_counter_eq segments p hp' hrange fuel (id + 1) (by omega)
  have hinit : (id : ℤ) + 1 ≤ INT_MAX := by omega
  refine ⟨l, ?_, hsorted.nodup, ?_⟩
  · unfold approximate_log_counter
    rw [if_pos hinit]
    have hcast : (id : ℤ) + 1 = ((id + 1 : ℕ) : ℤ) := by push_cast; rfl
    rw [hcast, hl]
  · intro j
    rw [hmem j, owned_from_one segments p id hid']
    constructor
    · rintro ⟨m, hm, rfl⟩
      simp only [Finset.mem_filter, Finset.mem_Icc] at hm
      refine ⟨by omega, by omega, ?_⟩
      have := Int.natCast_modEq_iff.2 hm.2
      simpa using this
    · rintro ⟨h1, h2, h3⟩
      have hj0 : ((j.toNat : ℕ) : ℤ) = j := Int.toNat_of_nonneg (by omega)
      refine ⟨j.toNat, ?_, hj0.symm⟩
      simp only [Finset.mem_filter, Finset.mem_Icc]
      refine ⟨⟨by omega, by omega⟩, ?_⟩
      apply Int.natCast_modEq_iff.1
      rw [hj0]
      simpa using h3

/-- Two ranks below `p` that own a common index are the same rank. -/
theorem rank_unique (p id id' j : ℤ) (hid0 : 0 ≤ id) (hid : id < p) (hid0' : 0 ≤ id')
    (hid' : id' < p) (h : j ≡ id + 1 [ZMOD p]) (h' : j ≡ id' + 1 [ZMOD p]) : id = id' := by
  have h2 : id ≡ id' [ZMOD p] := Int.ModEq.add_right_cancel' 1 (h.symm.trans h')
  unfold Int.ModEq at h2
  rwa [Int.emod_eq_of_lt hid0 hid, Int.emod_eq_of_lt hid0' hid'] at h2

/-- C3: round-robin ownership is a partition.  For `segments >= 1` and `P >= 1` with
`segments + P` within the range of `int`, the runs of the loop counter for the ranks
`id = 0, ..., P - 1` all end without overflow; each visits no index twice, the indices visited
by two different ranks are disjoint, and an index is visited by some rank exactly when it lies
in `{1, ..., segments}`. -/
theorem round_robin_partition (fuel : ℕ) (segments P : ℤ) (hs : 1 ≤ segments) (hP : 1 ≤ P)
    (hrange : segments + P ≤ INT_MAX) (hfuel : segments < fuel) :
    (∀ id : ℤ, 0 ≤ id → id < P →
        ∃ l, approximate_log_counter fuel segments id P = CounterRun.finished l ∧ l.Nodup) ∧
      (∀ (id id' : ℤ) (l l' : List ℤ), 0 ≤ id → id < P → 0 ≤ id' → id' < P → id ≠ id' →
        approximate_log_counter fuel segments id P = CounterRun.finished l →
        approximate_log_counter fuel segments id' P = CounterRun.finished l' →
        l.Disjoint l') ∧
      (∀ i : ℤ, (1 ≤ i ∧ i ≤ segments) ↔
        ∃ (id : ℤ) (l : List ℤ), 0 ≤ id ∧ id < P ∧
          approximate_log_counter fuel segments id P = CounterRun.finished l ∧ i ∈ l) := by
  have run := fun (id : ℤ) (h0 : 0 ≤ id) (h1 : id < P) =>
    approximate_log_counter_eq fuel segments id P hP (by omega) hrange h0 h1 hfuel
  refine ⟨?_, ?_, ?_⟩
  · intro id h0 h1
    obtain ⟨l, hl, hnd, _⟩ := run id h0 h1
    exact ⟨l, hl, hnd⟩
  · intro id id' l l' h0 h1 h0' h1' hne hl hl' j hj hj'
    obtain ⟨m, hm, _, hmem⟩ := run id h0 h1
    obtain ⟨m', hm', _, hmem'⟩ := run id' h0' h1'
    rw [hl] at hm
    rw [hl'] at hm'
    cases hm
    cases hm'
    exact hne (rank_unique P id id' j h0 h1 h0' h1' ((hmem j).1 hj).2.2 ((hmem' j).1 hj').2.2)
  · intro i
    constructor
    · rintro ⟨h1, h2⟩
      have hlt : (i - 1) % P < P := Int.emod_lt_of_pos _ (by omega)
      have hge : 0 ≤ (i - 1) % P := Int.emod_nonneg _ (by omega)
      obtain ⟨l, hl, _, hmem⟩ := run ((i - 1) % P) hge hlt
      refine ⟨(i - 1) % P, l, hge, hlt, hl, (hmem i).2 ⟨h1, h2, ?_⟩⟩
      have h3 : i - 1 ≡ (i - 1) % P [ZMOD P] := (Int.mod_modEq (i - 1) P).symm
      have h4 := Int.ModEq.add_right 1 h3
      simpa using h4
    · rintro ⟨id, l, h0, h1, hl, hi⟩
      obtain ⟨m, hm, _, hmem⟩ := run id h0 h1
      rw [hl] at hm
      cases hm
      exact ⟨((hmem i).1 hi).1, ((hmem i).1 hi).2.1⟩

/-- Witness for `round_robin_partition`. -/
theorem round_robin_partition_witness :
    (∀ id : ℤ, 0 ≤ id → id < 3 →
        ∃ l, approximate_log_counter 8 7 id 3 = CounterRun.finished l ∧ l.Nodup) ∧
      (∀ (id id' : ℤ) (l l' : List ℤ), 0 ≤ id → id < 3 → 0 ≤ id' → id' < 3 → id ≠ id' →
        approximate_log_counter 8 7 id 3 = CounterRun.finished l →
        approximate_log_counter 8 7 id' 3 = CounterRun.finished l' →
        l.Disjoint l') ∧
      (∀ i : ℤ, (1 ≤ i ∧ i ≤ 7) ↔
        ∃ (id : ℤ) (l : List ℤ), 0 ≤ id ∧ id < 3 ∧
          approximate_log_counter 8 7 id 3 = CounterRun.finished l ∧ i ∈ l) :=
  round_robin_partition 8 7 3 (by decide) (by decide) (by decide) (by decide)

/-- From any start `i` in `[1, INT_MAX]`, the counter of a run with `num_segments = INT_MAX` and
`p = 1` reaches `INT_MAX`, passes the loop test there, and overflows at the increment. -/
theorem loop_counter_overflow :
    ∀ (k fuel : ℕ) (i : ℤ), 0 ≤ i → i + (k : ℤ) = INT_MAX → k < fuel →
      loop_counter INT_MAX 1 fuel i = CounterRun.overflow INT_MAX := by
  intro k
  induction k with
  | zero =>
    intro fuel i _ hi hf
    obtain ⟨f, rfl⟩ : ∃ f, fuel = f + 1 := ⟨fuel - 1, by omega⟩
    have hi' : i = INT_MAX := by simpa using hi
    subst hi'
    unfold loop_counter
    simp [INT_MAX, INT_MIN]
  | succ k ih =>
    intro fuel i h0 hi hf
    obtain ⟨f, rfl⟩ : ∃ f, fuel = f + 1 := ⟨fuel - 1, by omega⟩
    unfold loop_counter
    have h1 : i ≤ INT_MAX := by push_cast at hi; omega
    have h2 : INT_MIN ≤ i + 1 ∧ i + 1 ≤ INT_MAX := by
      unfold INT_MIN INT_MAX at *
      push_cast at hi
      constructor <;> omega
    rw [if_pos h1, if_pos h2, ih f (i + 1) (by omega) (by push_cast at hi ⊢; omega) (by omega)]
    rfl

/-- C10 (failing input): with `num_segments = 2147483647`, `id = 0` and `p = 1`, values that
the validation of `main` lets through, the counter reaches `2147483647`, the loop test
`i <= num_segments` holds, and the increment `i += p` overflows the 32-bit `int`. -/
theorem counter_overflow_at_int_max :
    approximate_log_counter 2147483648 2147483647 0 1 = CounterRun.overflow 2147483647 := by
  unfold approximate_log_counter
  rw [if_pos (by decide)]
  exact loop_counter_overflow 2147483646 2147483648 (0 + 1) (by decide) (by decide) (by decide)

end CounterClaims

/-! ## The coordinator: claims -/

section CoordinatorClaims

/-- The two ways `main` can go once both conversions leave `errno` at zero: an error exit that
prints one message on rank 0, or a run that can only end with status 0. -/
theorem main_paths {K : Type} [LinearOrderedField K] (fuel : ℕ) (id p : ℤ)
    (a : CommandLine K) (t0 t1 : K) (hd : a.strtod_errno = Errno.zero)
    (hl : a.strtol_errno = Errno.zero) :
    ((a.argc ≠ 3 ∨ a.strtod_result < 1 ∨ long_to_int a.strtol_result < 1) →
        ∃ msg : Line K, (∀ x y z : K, msg ≠ Line.result x y z) ∧
          main fuel id p a t0 t1 =
            some ⟨EXIT_FAILURE, if id = ROOT then [msg] else [], none⟩) ∧
      (¬ (a.argc ≠ 3 ∨ a.strtod_result < 1 ∨ long_to_int a.strtol_result < 1) →
        ∀ e, main fuel id p a t0 t1 = some e → e.status = 0) := by
  unfold main
  by_cases h1 : a.argc ≠ 3
  · rw [if_pos h1]
    exact ⟨fun _ => ⟨Line.usage, (fun _ _ _ h => by cases h), rfl⟩, fun h => absurd (Or.inl h1) h⟩
  · rw [if_neg h1]
    by_cases h2 : a.strtod_result < 1
    · rw [if_pos (Or.inr (Or.inr h2))]
      exact ⟨fun _ => ⟨Line.invalid_argument 1, (fun _ _ _ h => by cases h), rfl⟩,
        fun h => absurd (Or.inr (Or.inl h2)) h⟩
    · have h2' : ¬ (a.strtod_errno = Errno.ERANGE ∨ a.strtod_errno = Errno.EINVAL ∨
          a.strtod_result < 1) := by
        rw [hd]
        simp [h2]
      rw [if_neg h2']
      by_cases h3 : long_to_int a.strtol_result < 1
      · rw [if_pos (Or.inr h3)]
        exact ⟨fun _ => ⟨Line.invalid_argument 2, (fun _ _ _ h => by cases h), rfl⟩,
          fun h => absurd (Or.inr (Or.inr h3)) h⟩
      · have h3' : ¬ (a.strtol_errno = Errno.ERANGE ∨ long_to_int a.strtol_result < 1) := by
          rw [hl]
          simp [h3]
        rw [if_neg h3']
        refine ⟨fun h => ?_, fun _ e he => ?_⟩
        · rcases h with h | h | h
          · exact absurd h h1
          · exact absurd h h2
          · exact absurd h h3
        · split at he
          · cases he
            rfl
          · cases he

/-- C7: validation decision of the coordinator, on the parsed values.  When both conversions
leave `errno` at zero, with `t` the value stored in `log_number` and `n` the value stored in
`num_intervals`, the process of any rank `id` ends as a rejected run (non-zero status, no call
of `approximate_log`, no result line) if and only if `argc != 3` or `t < 1` or `n < 1`; the
condition does not mention `id`, so every rank takes the same decision, and a rejected run
prints its message on rank 0 only. -/
theorem validation_decision {K : Type} [LinearOrderedField K] (fuel : ℕ) (id p : ℤ)
    (a : CommandLine K) (t0 t1 : K) (hd : a.strtod_errno = Errno.zero)
    (hl : a.strtol_errno = Errno.zero) :
    (Rejected (main fuel id p a t0 t1) ↔
        (a.argc ≠ 3 ∨ a.strtod_result < 1 ∨ long_to_int a.strtol_result < 1)) ∧
      (∀ id' : ℤ, Rejected (main fuel id' p a t0 t1) ↔ Rejected (main fuel id p a t0 t1)) ∧
      (∀ e, main fuel id p a t0 t1 = some e → e.status ≠ 0 → (e.stdout ≠ [] ↔ id = 0)) := by
  have key : ∀ i : ℤ, Rejected (main fuel i p a t0 t1) ↔
      (a.argc ≠ 3 ∨ a.strtod_result < 1 ∨ long_to_int a.strtol_result < 1) := by
    intro i
    obtain ⟨hrej, hacc⟩ := main_paths fuel i p a t0 t1 hd hl
    constructor
    · rintro ⟨e, he, hs, _⟩
      by_contra hc
      exact hs (hacc hc e he)
    · intro hc
      obtain ⟨msg, hmsg, hm⟩ := hrej hc
      refine ⟨_, hm, by simp [EXIT_FAILURE], rfl, ?_⟩
      intro x y z hmem
      dsimp only at hmem
      split_ifs at hmem
      · rw [List.mem_singleton] at hmem
        exact hmsg x y z hmem.symm
      · cases hmem
  refine ⟨key id, fun id' => (key id').trans (key id).symm, ?_⟩
  intro e he hs
  obtain ⟨hrej, hacc⟩ := main_paths fuel id p a t0 t1 hd hl
  by_cases hc : a.argc ≠ 3 ∨ a.strtod_result < 1 ∨ long_to_int a.strtol_result < 1
  · obtain ⟨msg, _, hm⟩ := hrej hc
    rw [hm] at he
    cases he
    dsimp only
    by_cases hid : id = ROOT
    · rw [if_pos hid]
      simpa [ROOT] using hid
    · rw [if_neg hid]
      simpa [ROOT] using hid
  · exact absurd (hacc hc e he) hs

/-- Witness for `validation_decision`: the three rejected scenarios of the specification,
`target = 0.5`, `segments = -5`, and a command line without arguments. -/
theorem validation_decision_witness :
    Rejected (main 5 2 4 (⟨3, 1 / 2, Errno.zero, 10, Errno.zero⟩ : CommandLine ℚ) 0 0) ∧
      Rejected (main 5 2 4 (⟨3, 10, Errno.zero, -5, Errno.zero⟩ : CommandLine ℚ) 0 0) ∧
      Rejected (main 5 2 4 (⟨1, 0, Errno.zero, 0, Errno.zero⟩ : CommandLine ℚ) 0 0) :=
  ⟨(validation_decision 5 2 4 (⟨3, 1 / 2, Errno.zero, 10, Errno.zero⟩ : CommandLine ℚ) 0 0
      rfl rfl).1.2 (Or.inr (Or.inl (by norm_num))),
    (validation_decision 5 2 4 (⟨3, 10, Errno.zero, -5, Errno.zero⟩ : CommandLine ℚ) 0 0
      rfl rfl).1.2 (Or.inr (Or.inr (by decide))),
    (validation_decision 5 2 4 (⟨1, 0, Errno.zero, 0, Errno.zero⟩ : CommandLine ℚ) 0 0
      rfl rfl).1.2 (Or.inl (by decide))⟩

/-- C8 (failing input): the command line `prog 2 4294967297`.  `strtol` returns `2^32 + 1`
without `ERANGE`, the assignment to the `int` `num_intervals` keeps `1`, the test
`num_intervals < 1` fails, and the run integrates with one segment and exits with status 0. -/
theorem out_of_range_interval_count_accepted :
    main 2 0 1 (⟨3, 2, Errno.zero, (strtol 4294967297).1, (strtol 4294967297).2⟩ :
        CommandLine ℚ) 0 0 =
      some ⟨0, [Line.result 2 (2 / 3) 0], some (2 / 3)⟩ := by
  simp [main, strtol, LONG_MAX, LONG_MIN, long_to_int, approximate_log,
    approximate_log_loop, log_estimate, MPI_Reduce_sum, elapsed_time, ROOT, INT_MAX, INT_MIN]
  norm_num

/-- C9 (failing input): clock readings `t0 = 100` and `t1 = 101`.  The result line of rank 0
reports `201` as elapsed time, the sum of the two readings, and not their difference `1`. -/
theorem elapsed_time_is_sum :
    main 2 0 1 (⟨3, 2, Errno.zero, 1, Errno.zero⟩ : CommandLine ℚ) 100 101 =
        some ⟨0, [Line.result 2 (2 / 3) 201], some (2 / 3)⟩ ∧
      elapsed_time (100 : ℚ) 101 ≠ 101 - 100 := by
  constructor
  · simp [main, long_to_int, approximate_log, approximate_log_loop, log_estimate,
      MPI_Reduce_sum, elapsed_time, ROOT, INT_MAX, INT_MIN]
    norm_num
  · norm_num [elapsed_time]

end CoordinatorClaims

/-! ## Accuracy of the midpoint sum -/

section Accuracy

/-- One rectangle against the exact area under `1/x` over `[a, a + h]`, third order. -/
theorem rectangle_error_third_order (h a : ℝ) (hh : 0 ≤ h) (hh2 : h < 2) (ha : 1 ≤ a) :
    |h / (a + h / 2) - (Real.log (a + h) - Real.log a)| ≤ 2 * ((h / 2) ^ 3 / (1 - h / 2)) := by
  have hm0 : 0 < a + h / 2 := by linarith
  have hu0 : 0 ≤ h / 2 / (a + h / 2) := div_nonneg (by linarith) hm0.le
  have huc : h / 2 / (a + h / 2) ≤ h / 2 := div_le_self (by linarith) (by linarith)
  have hu1 : h / 2 / (a + h / 2) < 1 := by linarith
  generalize hu : h / 2 / (a + h / 2) = u at hu0 huc hu1
  have e1 : a + h = (a + h / 2) * (1 + u) := by
    rw [← hu]
    field_simp
    ring
  have e2 : a = (a + h / 2) * (1 - u) := by
    rw [← hu]
    field_simp
    ring
  have e3 : h / (a + h / 2) = 2 * u := by
    rw [← hu]
    field_simp
    ring
  have habs : |u| = u := abs_of_nonneg hu0
  have hA := Real.abs_log_sub_add_sum_range_le (x := u) (by rw [habs]; exact hu1) 2
  have hB := Real.abs_log_sub_add_sum_range_le (x := -u) (by rw [abs_neg, habs]; exact hu1) 2
  simp only [Finset.sum_range_succ, Finset.sum_range_zero, abs_neg, habs, sub_neg_eq_add]
    at hA hB
  have hlog : Real.log (a + h) - Real.log a = Real.log (1 + u) - Real.log (1 - u) := by
    conv_lhs => rw [e1]; arg 2; rw [e2]
    rw [Real.log_mul hm0.ne' (by linarith), Real.log_mul hm0.ne' (by linarith)]
    ring
  have hmono : u ^ 3 / (1 - u) ≤ (h / 2) ^ 3 / (1 - h / 2) := by
    apply div_le_div₀ (by positivity) (pow_le_pow_left₀ hu0 huc 3) (by linarith) (by linarith)
  rw [e3, hlog]
  rw [abs_le] at hA hB ⊢
  norm_num at hA hB
  constructor <;> linarith [hA.1, hA.2, hB.1, hB.2]

/-- The full midpoint sum against `ln T`, given a bound `B` for each rectangle. -/
theorem midpoint_sum_error (T B : ℝ) (n : ℕ) (hT : 1 ≤ T) (hn : 1 ≤ n)
    (hB : ∀ a : ℝ, 1 ≤ a →
      |(T - 1) / (n : ℝ) / (a + (T - 1) / (n : ℝ) / 2) -
        (Real.log (a + (T - 1) / (n : ℝ)) - Real.log a)| ≤ B) :
    |(T - 1) / (n : ℝ) *
        ∑ j in Finset.Icc 1 n, 1 / ((T - 1) / (n : ℝ) * ((j : ℝ) - 1 / 2) + 1) -
      Real.log T| ≤ n * B := by
  have hn0 : (n : ℝ) ≠ 0 := by
    have : (0 : ℝ) < n := by exact_mod_cast hn
    exact this.ne'
  have hh0 : 0 ≤ (T - 1) / (n : ℝ) := div_nonneg (by linarith) (Nat.cast_nonneg n)
  have hhn : (T - 1) / (n : ℝ) * n = T - 1 := div_mul_cancel₀ _ hn0
  generalize (T - 1) / (n : ℝ) = h at hB hh0 hhn
  have e1 : ∑ j in Finset.Icc 1 n, 1 / (h * ((j : ℝ) - 1 / 2) + 1) =
      ∑ k in Finset.range n, 1 / (h * (((1 + k : ℕ) : ℝ) - 1 / 2) + 1) := by
    rw [← Nat.Ico_succ_right, Finset.sum_Ico_eq_sum_range]
    simp
  have tel : ∑ k in Finset.range n,
      (Real.log (1 + h * ((k + 1 : ℕ) : ℝ)) - Real.log (1 + h * (k : ℝ))) = Real.log T := by
    rw [Finset.sum_range_sub (fun k : ℕ => Real.log (1 + h * (k : ℝ))) n]
    have : 1 + h * (n : ℝ) = T := by linarith
    simp [this]
  rw [e1, Finset.mul_sum, ← tel, ← Finset.sum_sub_distrib]
  calc |∑ k in Finset.range n, (h * (1 / (h * (((1 + k : ℕ) : ℝ) - 1 / 2) + 1)) -
          (Real.log (1 + h * ((k + 1 : ℕ) : ℝ)) - Real.log (1 + h * (k : ℝ))))|
      ≤ ∑ k in Finset.range n, |h * (1 / (h * (((1 + k : ℕ) : ℝ) - 1 / 2) + 1)) -
          (Real.log (1 + h * ((k + 1 : ℕ) : ℝ)) - Real.log (1 + h * (k : ℝ)))| :=
        Finset.abs_sum_le_sum_abs _ _
    _ ≤ ∑ _k in Finset.range n, B := by
        apply Finset.sum_le_sum
        intro k _
        have hk : (1 : ℝ) ≤ 1 + h * (k : ℝ) := by
          have : 0 ≤ h * (k : ℝ) := mul_nonneg hh0 (Nat.cast_nonneg k)
          linarith
        have := hB (1 + h * (k : ℝ)) hk
        have ea : h * (1 / (h * (((1 + k : ℕ) : ℝ) - 1 / 2) + 1)) =
            h / (1 + h * (k : ℝ) + h / 2) := by
          push_cast
          rw [mul_one_div]
          congr 1
          ring
        have eb : 1 + h * ((k + 1 : ℕ) : ℝ) = 1 + h * (k : ℝ) + h := by
          push_cast
          ring
        rw [ea, eb]
        exact this
    _ = n * B := by simp

end Accuracy

/-! ## Accuracy: claims -/

section AccuracyClaims

/-- C6: accuracy scenario over the reals.  For `target = 10`, `segments = 1000` and `P = 4` the
four ranks return partial results whose sum, the value the reduction delivers to rank 0,
differs from `ln(10)` by less than `1e-3`. -/
theorem accuracy_scenario :
    ∃ v0 v1 v2 v3 : ℝ,
      approximate_log 1001 (10 : ℝ) 1000 0 4 = some v0 ∧
      approximate_log 1001 (10 : ℝ) 1000 1 4 = some v1 ∧
      approximate_log 1001 (10 : ℝ) 1000 2 4 = some v2 ∧
      approximate_log 1001 (10 : ℝ) 1000 3 4 = some v3 ∧
      log_estimate 1001 (10 : ℝ) 1000 4 = some (v0 + v1 + v2 + v3) ∧
      |v0 + v1 + v2 + v3 - Real.log 10| < 1 / 1000 := by
  have hrank : ∀ r : ℕ, r < 4 →
      approximate_log 1001 (10 : ℝ) ((1000 : ℕ) : ℤ) (r : ℤ) ((4 : ℕ) : ℤ) =
        some ((10 - 1) / ((1000 : ℕ) : ℝ) *
          ∑ j in (Finset.Icc 1 1000).filter (fun j => j ≡ r + 1 [MOD 4]),
            1 / ((10 - 1) / ((1000 : ℕ) : ℝ) * ((j : ℝ) - 1 / 2) + 1)) :=
    fun r hr => approximate_log_eq 1001 (10 : ℝ) 1000 r 4 hr (by decide) (by norm_num)
  have hred := MPI_Reduce_sum_eq
    (fun id => approximate_log 1001 (10 : ℝ) ((1000 : ℕ) : ℤ) id ((4 : ℕ) : ℤ)) _ 4 hrank
  have hsum := log_estimate_eq 1001 (10 : ℝ) 1000 4 (by norm_num) (by decide) (by norm_num)
  have hunfold : log_estimate 1001 (10 : ℝ) ((1000 : ℕ) : ℤ) ((4 : ℕ) : ℤ) =
      MPI_Reduce_sum (fun id => approximate_log 1001 (10 : ℝ) ((1000 : ℕ) : ℤ) id ((4 : ℕ) : ℤ))
        4 := by
    unfold log_estimate
    rw [Int.toNat_natCast]
  rw [← hunfold] at hred
  simp only [Finset.sum_range_succ, Finset.sum_range_zero, zero_add] at hred
  refine ⟨_, _, _, _, hrank 0 (by norm_num), hrank 1 (by norm_num), hrank 2 (by norm_num),
    hrank 3 (by norm_num), hred, ?_⟩
  have heq := hred.symm.trans hsum
  rw [Option.some.injEq] at heq
  rw [heq]
  have hb := midpoint_sum_error (10 : ℝ)
    (2 * (((10 - 1) / ((1000 : ℕ) : ℝ) / 2) ^ 3 / (1 - (10 - 1) / ((1000 : ℕ) : ℝ) / 2))) 1000
    (by norm_num) (by norm_num)
    (fun a ha => rectangle_error_third_order _ a (by norm_num) (by norm_num) ha)
  refine lt_of_le_of_lt hb ?_
  norm_num

end AccuracyClaims

end EstimateLog
